import Mathlib

/-!
Shallow embedding of the vendored Cilium label model
(`vendor/github.com/cilium/cilium/api/v1/models/selector_identity_mapping.go`,
package `labels`): the `Label` triple, label sets as association lists with
unique keys (Go `map[string]Label`), the canonical sorted serialization
`SortedList` / `FormatForKVStore`, set merge, equality, reserved-subset
extraction, and the textual label parsers `parseSource` / `parseLabel` /
`parseSelectLabel`.

Go strings are modelled as `List Char`; the source sorts and compares
strings byte-wise, and UTF-8 byte order coincides with code-point order,
so byte-wise lexicographic order is modelled as lexicographic order on the
character list.
-/

namespace CiliumLabels

/-- Go `string`, modelled as its sequence of characters. -/
abbrev Str := List Char

/-- Source `Label` is Cilium's representation of a container label
(fields `Key`, `Value`, `Source`). -/
structure Label where
  Key : Str
  Value : Str
  Source : Str
deriving DecidableEq, Repr

/-- Source `LabelSourceUnspec`: a label with unspecified source. -/
def LabelSourceUnspec : Str := "unspec".data

/-- Source `LabelSourceAny`: a label that matches any source. -/
def LabelSourceAny : Str := "any".data

/-- Source `LabelSourceK8s`: a label imported from Kubernetes. -/
def LabelSourceK8s : Str := "k8s".data

/-- Source `LabelSourceContainer`: a label imported from the container runtime. -/
def LabelSourceContainer : Str := "container".data

/-- Source `LabelSourceReserved`: the label source for reserved types. -/
def LabelSourceReserved : Str := "reserved".data

/-- Source `LabelSourceReservedKeyPrefix = LabelSourceReserved + "."`. -/
def LabelSourceReservedKeyPrefix : Str := LabelSourceReserved ++ ".".data

/-- Go `Labels` is `map[string]Label`; modelled as an association list.
A genuine Go map has no duplicate keys, which theorems assume as a
`Nodup` hypothesis where it matters. -/
abbrev Labels := List (Str × Label)

/-- Keys of a label set (Go `for k := range l`). -/
def keysOf (l : Labels) : List Str := l.map Prod.fst

/-- Go map lookup `l[k]` returning `ok`. -/
def lookupLbl : Labels → Str → Option Label
  | [], _ => none
  | (k', v) :: rest, k => if k' = k then some v else lookupLbl rest k

/-- Go map indexing `l[k]` (zero `Label` when the key is absent). -/
def lookupD (l : Labels) (k : Str) : Label :=
  (lookupLbl l k).getD ⟨[], [], []⟩

/-- Byte-wise `<` on Go strings (what `sort.Strings` uses). -/
def strLt : Str → Str → Bool
  | [], [] => false
  | [], _ :: _ => true
  | _ :: _, [] => false
  | a :: as, b :: bs => if a < b then true else if b < a then false else strLt as bs

/-- Byte-wise `<=` on Go strings. -/
def strLe (a b : Str) : Bool := !(strLt b a)

/-- Source `strLe` as a relation, for sortedness statements. -/
def strLeR (a b : Str) : Prop := strLe a b = true

instance : DecidableRel strLeR := fun a b => by unfold strLeR; infer_instance

/-- Go `sort.Strings`: sort a string slice in ascending byte order. -/
def sortStrings (l : List Str) : List Str := List.insertionSort strLeR l

/-- Source `Label.FormatForKVStore` returns the label as a formatted string ending
in a semicolon: `fmt.Sprintf("%s:%s=%s;", l.Source, l.Key, l.Value)`. -/
def Label.FormatForKVStore (l : Label) : Str :=
  l.Source ++ ':' :: l.Key ++ '=' :: l.Value ++ [';']

/-- Source `Labels.SortedList`: collect the keys, `sort.Strings` them, then
concatenate `l[k].FormatForKVStore()` for each key in order. -/
def Labels.SortedList (l : Labels) : Str :=
  (sortStrings (keysOf l)).foldl (fun result k => result ++ (lookupD l k).FormatForKVStore) []

/-- Source `Label.IsAnySource` returns whether the label was set with source "any". -/
def Label.IsAnySource (l : Label) : Bool := l.Source = LabelSourceAny

/-- Source `Label.Equals`: true if Source, Key and Value are equal, except that a
receiver with source "any" skips the source comparison. -/
def Label.Equals (l b : Label) : Bool :=
  if !l.IsAnySource && decide (l.Source ≠ b.Source) then false
  else decide (l.Key = b.Key) && decide (l.Value = b.Value)

/-- Source `Labels.Equals` returns true if the two `Labels` contain the same set of
labels: equal lengths, and every entry of `l` found in `other` under its key
with equal `Source`, `Key` and `Value`. -/
def Labels.Equals (l other : Labels) : Bool :=
  decide (l.length = other.length) &&
  l.all (fun p =>
    match lookupLbl other p.1 with
    | some lbl2 => decide (p.2.Source = lbl2.Source ∧ p.2.Key = lbl2.Key ∧ p.2.Value = lbl2.Value)
    | none => false)

/-- Go map assignment `l[k] = v`: replace the binding of `k` if present,
otherwise add one. -/
def mapInsert : Labels → Str → Label → Labels
  | [], k, v => [(k, v)]
  | (k', v') :: rest, k, v =>
      if k' = k then (k, v) :: rest else (k', v') :: mapInsert rest k v

/-- Source `Labels.MergeLabels` merges labels `from` into `to`, overwriting every
binding of `to` whose key also occurs in `from` (`for k, v := range from
{ l[k] = v }`). The Go method mutates the receiver in place; the embedding
returns the receiver's new state. -/
def Labels.MergeLabels (l from' : Labels) : Labels :=
  from'.foldl (fun acc p => mapInsert acc p.1 p.2) l

/-- Source `Labels.FindReserved` collects all labels with reserved source into a
fresh set and returns it when non-empty, and Go `nil` (here `none`)
otherwise. -/
def Labels.FindReserved (l : Labels) : Option Labels :=
  let lbls := l.filter (fun p => decide (p.2.Source = LabelSourceReserved))
  if lbls.length > 0 then some lbls else none

/-- Go `strings.IndexByte`: index of the first occurrence of `c`, `none`
standing for Go's `-1`. -/
def indexByte : Str → Char → Option Nat
  | [], _ => none
  | c' :: rest, c => if c' = c then some 0 else (indexByte rest c).map (· + 1)

/-- Source `parseSource` returns the parsed source of `str` and the text after it:
empty input gives two empties; a leading `$` fixes source "reserved"; else
split at the first `delim`, falling back (for non-`.` delimiters) to
stripping a literal `reserved.` prefix, or to an empty source. -/
def parseSource (str : Str) (delim : Char) : Str × Str :=
  match str with
  | [] => ([], [])
  | c :: rest =>
    if c = '$' then (LabelSourceReserved, rest)
    else match indexByte str delim with
      | some i => (str.take i, str.drop (i + 1))
      | none =>
        if delim ≠ '.' ∧ LabelSourceReservedKeyPrefix.isPrefixOf str = true then
          (LabelSourceReserved, str.drop LabelSourceReservedKeyPrefix.length)
        else ([], str)

/-- Source `parseLabel` returns the label representation of `str`: parse the
source, default it to "unspec" when empty, then split the remainder at the
first `=` into key and value — except that a `=` at position 0 with source
"reserved" makes the text after it the key. -/
def parseLabel (str : Str) (delim : Char) : Label :=
  let sn := parseSource str delim
  let source := if sn.1 ≠ [] then sn.1 else LabelSourceUnspec
  match indexByte sn.2 '=' with
  | none => { Source := source, Key := sn.2, Value := [] }
  | some i =>
    if i = 0 ∧ sn.1 = LabelSourceReserved then
      { Source := source, Key := sn.2.drop (i + 1), Value := [] }
    else
      { Source := source, Key := sn.2.take i, Value := sn.2.drop (i + 1) }

/-- Source `ParseLabel`: `parseLabel` with the Cilium delimiter `:`. -/
def ParseLabel (str : Str) : Label := parseLabel str ':'

/-- Source `parseSelectLabel`: like `parseLabel`, but an "unspec" source is
replaced by "any". -/
def parseSelectLabel (str : Str) (delim : Char) : Label :=
  let lbl := parseLabel str delim
  if lbl.Source = LabelSourceUnspec then { lbl with Source := LabelSourceAny } else lbl

/-- Source `ParseSelectLabel`: `parseSelectLabel` with the Cilium delimiter `:`. -/
def ParseSelectLabel (str : Str) : Label := parseSelectLabel str ':'

/-! ### Properties of the byte-wise string order -/

theorem strLt_irrefl : ∀ a : Str, strLt a a = false := by
  intro a
  induction a with
  | nil => rfl
  | cons c as ih => simp [strLt, lt_irrefl, ih]

theorem strLt_asymm : ∀ a b : Str, strLt a b = true → strLt b a = false := by
  intro a
  induction a with
  | nil =>
      intro b h
      cases b with
      | nil => simp [strLt] at h
      | cons d bs => simp [strLt]
  | cons c as ih =>
      intro b h
      cases b with
      | nil => simp [strLt] at h
      | cons d bs =>
          rcases lt_trichotomy c d with hcd | hcd | hcd
          · simp [strLt, hcd, lt_asymm hcd]
          · subst hcd
            simp [strLt, lt_irrefl] at h ⊢
            exact ih bs h
          · simp [strLt, hcd, lt_asymm hcd] at h

theorem strLt_conn : ∀ a b : Str, strLt a b = false → strLt b a = false → a = b := by
  intro a
  induction a with
  | nil =>
      intro b h _
      cases b with
      | nil => rfl
      | cons d bs => simp [strLt] at h
  | cons c as ih =>
      intro b h h'
      cases b with
      | nil => simp [strLt] at h'
      | cons d bs =>
          rcases lt_trichotomy c d with hcd | hcd | hcd
          · simp [strLt, hcd] at h
          · subst hcd
            simp [strLt, lt_irrefl] at h h'
            rw [ih bs h h']
          · simp [strLt, hcd] at h'

theorem strLt_trans : ∀ a b c : Str, strLt a b = true → strLt b c = true → strLt a c = true := by
  intro a
  induction a with
  | nil =>
      intro b c hab hbc
      cases b with
      | nil => simp [strLt] at hab
      | cons y bs =>
          cases c with
          | nil => simp [strLt] at hbc
          | cons z cs => simp [strLt]
  | cons x as ih =>
      intro b c hab hbc
      cases b with
      | nil => simp [strLt] at hab
      | cons y bs =>
          cases c with
          | nil => simp [strLt] at hbc
          | cons z cs =>
              rcases lt_trichotomy x y with hxy | hxy | hxy
              · rcases lt_trichotomy y z with hyz | hyz | hyz
                · simp [strLt, lt_trans hxy hyz]
                · subst hyz; simp [strLt, hxy]
                · simp [strLt, hyz, lt_asymm hyz] at hbc
              · subst hxy
                rcases lt_trichotomy x z with hxz | hxz | hxz
                · simp [strLt, hxz]
                · subst hxz
                  simp [strLt, lt_irrefl] at hab hbc ⊢
                  exact ih bs cs hab hbc
                · simp [strLt, hxz, lt_asymm hxz] at hbc
              · simp [strLt, hxy, lt_asymm hxy] at hab

theorem strLeR_total : ∀ a b : Str, strLeR a b ∨ strLeR b a := by
  intro a b
  unfold strLeR strLe
  cases h : strLt b a with
  | false => left; simp
  | true => right; simp [strLt_asymm b a h]

theorem strLeR_trans : ∀ a b c : Str, strLeR a b → strLeR b c → strLeR a c := by
  intro a b c hab hbc
  unfold strLeR strLe at hab hbc ⊢
  simp only [Bool.not_eq_true'] at hab hbc ⊢
  cases hca : strLt c a with
  | false => rfl
  | true =>
      cases hbc' : strLt b c with
      | false =>
          have := strLt_conn b c hbc' hbc
          subst this
          rw [hca] at hab
          exact hab
      | true =>
          have := strLt_trans b c a hbc' hca
          rw [this] at hab
          exact hab

theorem strLeR_antisymm : ∀ a b : Str, strLeR a b → strLeR b a → a = b := by
  intro a b hab hba
  unfold strLeR strLe at hab hba
  simp only [Bool.not_eq_true'] at hab hba
  exact strLt_conn a b hba hab

instance : IsTotal Str strLeR := ⟨strLeR_total⟩

instance : IsTrans Str strLeR := ⟨strLeR_trans⟩

/-! ### The canonical sorted serialization -/

theorem foldl_format_eq_flatten (l : Labels) :
    ∀ (ks : List Str) (init : Str),
      ks.foldl (fun result k => result ++ (lookupD l k).FormatForKVStore) init
        = init ++ (ks.map (fun k => (lookupD l k).FormatForKVStore)).flatten := by
  intro ks
  induction ks with
  | nil => intro init; simp
  | cons k ks ih => intro init; simp [ih, List.append_assoc]

/-- C1: `SortedList` is the concatenation, over the set's keys sorted in
ascending byte order, of the records `source:key=value;` — literal `':'`,
`'='` and a trailing `';'` on every record (empty values included), with no
additional separator. -/
theorem sortedList_canonical (l : Labels) :
    Labels.SortedList l
      = ((sortStrings (keysOf l)).map (fun k =>
            (lookupD l k).Source ++ ':' :: (lookupD l k).Key
              ++ '=' :: (lookupD l k).Value ++ [';'])).flatten
    ∧ List.Sorted strLeR (sortStrings (keysOf l))
    ∧ List.Perm (sortStrings (keysOf l)) (keysOf l) := by
  refine ⟨?_, List.sorted_insertionSort strLeR _, List.perm_insertionSort strLeR _⟩
  unfold Labels.SortedList
  rw [foldl_format_eq_flatten l (sortStrings (keysOf l)) []]
  simp [Label.FormatForKVStore]

theorem sorted_subset_extends :
    ∀ (Q P : List Str), List.Sorted strLeR P → List.Sorted strLeR Q →
      P.Nodup → Q.Nodup → (∀ x ∈ P, x ∈ Q) →
      (∀ q ∈ Q, q ∉ P → ∀ p ∈ P, strLt p q = true) →
      P <+: Q := by
  intro Q
  induction Q with
  | nil =>
      intro P _ _ _ _ hsub _
      cases P with
      | nil => exact ⟨[], rfl⟩
      | cons p P' => exact absurd (hsub p (List.mem_cons_self p P')) (List.not_mem_nil p)
  | cons q Q' ih =>
      intro P hPs hQs hPn hQn hsub hmin
      cases P with
      | nil => exact ⟨q :: Q', rfl⟩
      | cons p P' =>
          have hpQ : p ∈ q :: Q' := hsub p (List.mem_cons_self p P')
          have hpq : p = q := by
            rcases List.mem_cons.mp hpQ with h4 | h4
            · exact h4
            · by_cases hq : q ∈ p :: P'
              · rcases List.mem_cons.mp hq with h1 | h1
                · exact h1.symm
                · exact strLeR_antisymm p q (List.rel_of_sorted_cons hPs q h1)
                    (List.rel_of_sorted_cons hQs p h4)
              · have h2 : strLt p q = true :=
                  hmin q (List.mem_cons_self q Q') hq p (List.mem_cons_self p P')
                have h5 : strLeR q p := List.rel_of_sorted_cons hQs p h4
                unfold strLeR strLe at h5
                rw [h2] at h5
                simp at h5
          subst hpq
          have hpP' : p ∉ P' := (List.nodup_cons.mp hPn).1
          have hpQ' : p ∉ Q' := (List.nodup_cons.mp hQn).1
          have hsub' : ∀ x ∈ P', x ∈ Q' := by
            intro x hx
            rcases List.mem_cons.mp (hsub x (List.mem_cons_of_mem p hx)) with h1 | h1
            · rw [h1] at hx; exact absurd hx hpP'
            · exact h1
          have hmin' : ∀ q' ∈ Q', q' ∉ P' → ∀ x ∈ P', strLt x q' = true := by
            intro q' hq' hq'P x hx
            have hnotin : q' ∉ p :: P' := by
              intro hmem
              rcases List.mem_cons.mp hmem with h1 | h1
              · rw [h1] at hq'; exact hpQ' hq'
              · exact hq'P h1
            exact hmin q' (List.mem_cons_of_mem p hq') hnotin x (List.mem_cons_of_mem p hx)
          obtain ⟨t, ht⟩ := ih P' hPs.of_cons hQs.of_cons
            (List.nodup_cons.mp hPn).2 (List.nodup_cons.mp hQn).2 hsub' hmin'
          exact ⟨t, by rw [List.cons_append, ht]⟩

/-- C2's claim as stated is false: with A = {"b": (b,2,k8s)} and
B = {"a": (a,1,k8s), "b": (b,2,k8s)}, A's key set is contained in B's and
the shared entry is identical, yet `SortedList A = "k8s:b=2;"` is not a
prefix of `SortedList B = "k8s:a=1;k8s:b=2;"`. -/
theorem sortedList_extension_cex :
    keysOf [("b".data, ⟨"b".data, "2".data, "k8s".data⟩)] = ["b".data]
    ∧ "b".data ∈ keysOf [("a".data, ⟨"a".data, "1".data, "k8s".data⟩),
        ("b".data, ⟨"b".data, "2".data, "k8s".data⟩)]
    ∧ lookupLbl [("a".data, ⟨"a".data, "1".data, "k8s".data⟩),
        ("b".data, ⟨"b".data, "2".data, "k8s".data⟩)] "b".data
      = lookupLbl [("b".data, ⟨"b".data, "2".data, "k8s".data⟩)] "b".data
    ∧ ¬ (Labels.SortedList [("b".data, ⟨"b".data, "2".data, "k8s".data⟩)]
          <+: Labels.SortedList [("a".data, ⟨"a".data, "1".data, "k8s".data⟩),
            ("b".data, ⟨"b".data, "2".data, "k8s".data⟩)]) := by
  refine ⟨?_, ?_, ?_, ?_⟩ <;> decide

/-- C2 (amended): for label sets A and B whose key sets are duplicate-free,
if A's key set is contained in B's, every shared key carries an identical
entry, and additionally every key of B absent from A is byte-wise greater
than every key of A, then `SortedList A` is a byte-for-byte initial segment
of `SortedList B`. -/
theorem sortedList_extends (A B : Labels)
    (hA : (keysOf A).Nodup) (hB : (keysOf B).Nodup)
    (hsub : ∀ k ∈ keysOf A, k ∈ keysOf B)
    (hshared : ∀ k ∈ keysOf A, lookupLbl B k = lookupLbl A k)
    (hord : ∀ k ∈ keysOf B, k ∉ keysOf A → ∀ j ∈ keysOf A, strLt j k = true) :
    Labels.SortedList A <+: Labels.SortedList B := by
  have hPperm : List.Perm (sortStrings (keysOf A)) (keysOf A) := List.perm_insertionSort strLeR _
  have hQperm : List.Perm (sortStrings (keysOf B)) (keysOf B) := List.perm_insertionSort strLeR _
  have hpre : sortStrings (keysOf A) <+: sortStrings (keysOf B) := by
    apply sorted_subset_extends
    · exact List.sorted_insertionSort strLeR _
    · exact List.sorted_insertionSort strLeR _
    · exact hPperm.nodup_iff.mpr hA
    · exact hQperm.nodup_iff.mpr hB
    · intro x hx
      exact hQperm.mem_iff.mpr (hsub x (hPperm.mem_iff.mp hx))
    · intro q hq hqP p hp
      exact hord q (hQperm.mem_iff.mp hq) (fun h => hqP (hPperm.mem_iff.mpr h))
        p (hPperm.mem_iff.mp hp)
  obtain ⟨E, hE⟩ := hpre
  have hmapeq : (sortStrings (keysOf A)).map (fun k => (lookupD A k).FormatForKVStore)
      = (sortStrings (keysOf A)).map (fun k => (lookupD B k).FormatForKVStore) := by
    apply List.map_congr_left
    intro k hk
    unfold lookupD
    rw [hshared k (hPperm.mem_iff.mp hk)]
  unfold Labels.SortedList
  rw [foldl_format_eq_flatten A _ [], foldl_format_eq_flatten B _ []]
  simp only [List.nil_append]
  refine ⟨((E.map (fun k => (lookupD B k).FormatForKVStore))).flatten, ?_⟩
  rw [hmapeq, ← List.flatten_append, ← List.map_append, hE]

/-- Witness for `sortedList_extends` at the spec's example pair. -/
theorem sortedList_extends_witness :
    Labels.SortedList [("a".data, ⟨"a".data, "1".data, "k8s".data⟩)]
      <+: Labels.SortedList [("a".data, ⟨"a".data, "1".data, "k8s".data⟩),
          ("b".data, ⟨"b".data, "2".data, "k8s".data⟩)] :=
  sortedList_extends _ _ (by decide) (by decide) (by decide) (by decide) (by decide)

/-- C4: `ParseLabel "$host"` gives the reserved `host` label;
`ParseLabel "k8s:role=backend"` gives key `role`, value `backend`, source
`k8s`; a source-less input gets source `unspec` from `ParseLabel` but
source `any` from `ParseSelectLabel`. -/
theorem parseLabel_examples :
    ParseLabel "$host".data = ⟨"host".data, [], LabelSourceReserved⟩
    ∧ ParseLabel "k8s:role=backend".data = ⟨"role".data, "backend".data, LabelSourceK8s⟩
    ∧ ParseLabel "role=backend".data = ⟨"role".data, "backend".data, LabelSourceUnspec⟩
    ∧ ParseSelectLabel "role=backend".data = ⟨"role".data, "backend".data, LabelSourceAny⟩ := by
  refine ⟨?_, ?_, ?_, ?_⟩ <;> decide

/-! ### Map update and merge -/

theorem keysOf_cons (p : Str × Label) (l : Labels) : keysOf (p :: l) = p.1 :: keysOf l := rfl

theorem lookup_mapInsert_self : ∀ (l : Labels) (k : Str) (v : Label),
    lookupLbl (mapInsert l k v) k = some v := by
  intro l k v
  induction l with
  | nil => simp [mapInsert, lookupLbl]
  | cons p rest ih =>
      obtain ⟨k', v'⟩ := p
      by_cases h : k' = k
      · simp [mapInsert, h, lookupLbl]
      · simp [mapInsert, h, lookupLbl, ih]

theorem lookup_mapInsert_other : ∀ (l : Labels) (k j : Str) (v : Label), j ≠ k →
    lookupLbl (mapInsert l k v) j = lookupLbl l j := by
  intro l k j v hjk
  have hkj : ¬ k = j := fun h => hjk h.symm
  induction l with
  | nil => simp [mapInsert, lookupLbl, hkj]
  | cons p rest ih =>
      obtain ⟨k', v'⟩ := p
      by_cases h : k' = k
      · subst h
        simp [mapInsert, lookupLbl, hkj]
      · by_cases h2 : k' = j
        · subst h2
          simp [mapInsert, lookupLbl, h, hjk]
        · simp [mapInsert, lookupLbl, h, h2, ih]

theorem mergeLabels_cons (to' : Labels) (k : Str) (v : Label) (rest : Labels) :
    Labels.MergeLabels to' ((k, v) :: rest) = Labels.MergeLabels (mapInsert to' k v) rest := rfl

theorem mergeLabels_lookup_not_mem : ∀ (from' to' : Labels) (k : Str), k ∉ keysOf from' →
    lookupLbl (Labels.MergeLabels to' from') k = lookupLbl to' k := by
  intro from'
  induction from' with
  | nil => intro to' k _; rfl
  | cons p rest ih =>
      intro to' k hk
      obtain ⟨k₁, v₁⟩ := p
      rw [keysOf_cons, List.mem_cons] at hk
      push_neg at hk
      rw [mergeLabels_cons, ih _ k hk.2, lookup_mapInsert_other to' k₁ k v₁ hk.1]

theorem mergeLabels_lookup_mem : ∀ (from' to' : Labels), (keysOf from').Nodup →
    ∀ k ∈ keysOf from',
      lookupLbl (Labels.MergeLabels to' from') k = lookupLbl from' k := by
  intro from'
  induction from' with
  | nil => intro to' _ k hk; simp [keysOf] at hk
  | cons p rest ih =>
      intro to' hN k hk
      obtain ⟨k₁, v₁⟩ := p
      rw [keysOf_cons] at hN hk
      have hN1 : k₁ ∉ keysOf rest := (List.nodup_cons.mp hN).1
      have hN2 : (keysOf rest).Nodup := (List.nodup_cons.mp hN).2
      rw [mergeLabels_cons]
      by_cases h : k = k₁
      · subst h
        rw [mergeLabels_lookup_not_mem rest _ k hN1, lookup_mapInsert_self]
        simp [lookupLbl]
      · have hk' : k ∈ keysOf rest := by
          rcases List.mem_cons.mp hk with h1 | h1
          · exact absurd h1 h
          · exact h1
        rw [ih (mapInsert to' k₁ v₁) hN2 k hk']
        have hne : ¬ k₁ = k := fun h' => h h'.symm
        simp [lookupLbl, hne]

/-- C3: after merging `from` into `to` (Go maps, so duplicate-free key
lists), every key of `from` is bound in the result to exactly `from`'s
label for it, and every other key keeps `to`'s binding. The Go method
mutates `to` in place; the embedding returns `to`'s new state. -/
theorem mergeLabels_spec (to' from' : Labels) (hN : (keysOf from').Nodup) :
    (∀ k ∈ keysOf from', lookupLbl (Labels.MergeLabels to' from') k = lookupLbl from' k)
    ∧ (∀ k, k ∉ keysOf from' → lookupLbl (Labels.MergeLabels to' from') k = lookupLbl to' k) :=
  ⟨mergeLabels_lookup_mem from' to' hN, fun k hk => mergeLabels_lookup_not_mem from' to' k hk⟩

/-- Witness for `mergeLabels_spec` at the spec's merge example. -/
theorem mergeLabels_spec_witness :
    lookupLbl (Labels.MergeLabels
        [("x".data, ⟨"x".data, "1".data, LabelSourceContainer⟩),
         ("y".data, ⟨"y".data, "3".data, LabelSourceK8s⟩)]
        [("x".data, ⟨"x".data, "2".data, LabelSourceK8s⟩)]) "x".data
      = some ⟨"x".data, "2".data, LabelSourceK8s⟩
    ∧ lookupLbl (Labels.MergeLabels
        [("x".data, ⟨"x".data, "1".data, LabelSourceContainer⟩),
         ("y".data, ⟨"y".data, "3".data, LabelSourceK8s⟩)]
        [("x".data, ⟨"x".data, "2".data, LabelSourceK8s⟩)]) "y".data
      = some ⟨"y".data, "3".data, LabelSourceK8s⟩ := by
  have h := mergeLabels_spec
    [("x".data, ⟨"x".data, "1".data, LabelSourceContainer⟩),
     ("y".data, ⟨"y".data, "3".data, LabelSourceK8s⟩)]
    [("x".data, ⟨"x".data, "2".data, LabelSourceK8s⟩)] (by decide)
  constructor
  · rw [h.1 "x".data (by decide)]; decide
  · rw [h.2 "y".data (by decide)]; decide

/-- C8: the low-level parser is total — it returns a label for every input
(no error channel exists in its signature) — and the empty input yields the
label with empty key (and source "unspec"), the caller-detectable
invalidity signal. -/
theorem parseLabel_total_and_empty :
    (∀ (str : Str) (delim : Char), ∃ lbl, parseLabel str delim = lbl)
    ∧ ParseLabel [] = ⟨[], [], LabelSourceUnspec⟩ :=
  ⟨fun str delim => ⟨parseLabel str delim, rfl⟩, by decide⟩

/-- C10: per-label `Equals` compares key and value and skips the source
comparison exactly when the receiver's source is "any"; it is therefore
asymmetric, e.g. between sources "any" and "k8s" on the same key/value. -/
theorem labelEquals_spec :
    (∀ a b : Label, Label.Equals a b = true ↔
      (a.Key = b.Key ∧ a.Value = b.Value ∧ (a.Source = LabelSourceAny ∨ a.Source = b.Source)))
    ∧ Label.Equals ⟨"k".data, "v".data, LabelSourceAny⟩ ⟨"k".data, "v".data, LabelSourceK8s⟩ = true
    ∧ Label.Equals ⟨"k".data, "v".data, LabelSourceK8s⟩ ⟨"k".data, "v".data, LabelSourceAny⟩
        = false := by
  refine ⟨?_, by decide, by decide⟩
  intro a b
  unfold Label.Equals Label.IsAnySource
  by_cases h : a.Source = LabelSourceAny <;> by_cases h2 : a.Source = b.Source <;>
    simp [h, h2]

/-! ### Reserved-subset extraction -/

theorem findReserved_eq (l : Labels) :
    Labels.FindReserved l =
      if 0 < (l.filter (fun p => decide (p.2.Source = LabelSourceReserved))).length
      then some (l.filter (fun p => decide (p.2.Source = LabelSourceReserved)))
      else none := rfl

/-- C9: `FindReserved` returns a fresh set holding exactly the entries with
source "reserved" when one exists, and the nil result (`none`, not an empty
set) when none does; being a pure function of `l`, it leaves the input
untouched. -/
theorem findReserved_spec (l : Labels) :
    (Labels.FindReserved l = none ↔ ∀ p ∈ l, p.2.Source ≠ LabelSourceReserved)
    ∧ (∀ r, Labels.FindReserved l = some r →
        r ≠ [] ∧ ∀ p, p ∈ r ↔ (p ∈ l ∧ p.2.Source = LabelSourceReserved)) := by
  by_cases hlen : 0 < (l.filter (fun p => decide (p.2.Source = LabelSourceReserved))).length
  · rw [findReserved_eq, if_pos hlen]
    constructor
    · constructor
      · intro h; exact absurd h (by simp)
      · intro hall
        exfalso
        obtain ⟨p, hp⟩ := List.exists_mem_of_ne_nil _ (List.length_pos.mp hlen)
        have hmem := List.mem_filter.mp hp
        exact hall p hmem.1 (by simpa using hmem.2)
    · intro r hr
      have hr' := Option.some.inj hr
      rw [← hr']
      constructor
      · exact List.length_pos.mp hlen
      · intro p
        simp [List.mem_filter]
  · rw [findReserved_eq, if_neg hlen]
    have hnil : l.filter (fun p => decide (p.2.Source = LabelSourceReserved)) = [] :=
      List.length_eq_zero.mp (Nat.eq_zero_of_not_pos hlen)
    constructor
    · constructor
      · intro _ p hp hsrc
        have : p ∈ l.filter (fun p => decide (p.2.Source = LabelSourceReserved)) :=
          List.mem_filter.mpr ⟨hp, by simp [hsrc]⟩
        rw [hnil] at this
        exact List.not_mem_nil p this
      · intro _; rfl
    · intro r hr; exact absurd hr (by simp)

/-! ### Label-set equality -/

theorem label_ext {a b : Label} (h1 : a.Source = b.Source) (h2 : a.Key = b.Key)
    (h3 : a.Value = b.Value) : a = b := by
  cases a; cases b; simp_all

theorem mem_keysOf (l : Labels) (k : Str) : k ∈ keysOf l ↔ ∃ v, (k, v) ∈ l := by
  simp only [keysOf, List.mem_map]
  constructor
  · rintro ⟨⟨k', v⟩, hmem, rfl⟩; exact ⟨v, hmem⟩
  · rintro ⟨v, hv⟩; exact ⟨(k, v), hv, rfl⟩

theorem lookup_eq_some_mem : ∀ (l : Labels) (k : Str) (v : Label),
    lookupLbl l k = some v → (k, v) ∈ l := by
  intro l k v
  induction l with
  | nil => intro h; simp [lookupLbl] at h
  | cons p rest ih =>
      obtain ⟨k', v'⟩ := p
      intro h
      by_cases hk : k' = k
      · subst hk
        simp [lookupLbl] at h
        rw [← h]
        exact List.mem_cons_self _ _
      · simp only [lookupLbl, if_neg hk] at h
        exact List.mem_cons_of_mem _ (ih h)

theorem mem_lookup_eq : ∀ (l : Labels), (keysOf l).Nodup →
    ∀ (k : Str) (v : Label), (k, v) ∈ l → lookupLbl l k = some v := by
  intro l
  induction l with
  | nil => intro _ k v hv; simp at hv
  | cons p rest ih =>
      obtain ⟨k', v'⟩ := p
      intro hN k v hv
      rw [keysOf_cons] at hN
      rcases List.mem_cons.mp hv with h1 | h1
      · obtain ⟨hk, hval⟩ := Prod.mk.injEq .. ▸ h1
        subst hk; subst hval
        simp [lookupLbl]
      · by_cases hk : k' = k
        · subst hk
          exact absurd ((mem_keysOf rest k').mpr ⟨v, h1⟩) (List.nodup_cons.mp hN).1
        · simp only [lookupLbl, if_neg hk]
          exact ih (List.nodup_cons.mp hN).2 k v h1

theorem lookup_eq_none_iff : ∀ (l : Labels) (k : Str),
    lookupLbl l k = none ↔ k ∉ keysOf l := by
  intro l k
  induction l with
  | nil => simp [lookupLbl, keysOf]
  | cons p rest ih =>
      obtain ⟨k', v'⟩ := p
      by_cases hk : k' = k
      · subst hk
        simp [lookupLbl, keysOf_cons]
      · rw [keysOf_cons]
        simp only [lookupLbl, if_neg hk, List.mem_cons]
        rw [ih]
        constructor
        · intro h hmem
          rcases hmem with h1 | h1
          · exact hk h1.symm
          · exact h h1
        · intro h hm
          exact h (Or.inr hm)

theorem labelsEquals_unfold (l other : Labels) :
    Labels.Equals l other = true ↔
      (l.length = other.length ∧ ∀ p ∈ l, lookupLbl other p.1 = some p.2) := by
  unfold Labels.Equals
  rw [Bool.and_eq_true, decide_eq_true_iff, List.all_eq_true]
  apply and_congr_right
  intro _
  constructor
  · intro h p hp
    have h2 := h p hp
    cases hlk : lookupLbl other p.1 with
    | none => rw [hlk] at h2; simp at h2
    | some lbl2 =>
        rw [hlk] at h2
        simp only [decide_eq_true_eq] at h2
        exact congrArg some (label_ext h2.1 h2.2.1 h2.2.2).symm
  · intro h p hp
    rw [h p hp]
    simp

/-- C7: set-level `Equals` holds exactly when the two sets have the same
number of entries and every entry of `l` is found in `other` under its key
with identical fields — equivalently, exactly when the two key-to-label
mappings are equal as functions (no fuzzy or partial matching). -/
theorem labelsEquals_iff (l other : Labels)
    (hl : (keysOf l).Nodup) (ho : (keysOf other).Nodup) :
    (Labels.Equals l other = true ↔
      (l.length = other.length ∧ ∀ p ∈ l, lookupLbl other p.1 = some p.2))
    ∧ (Labels.Equals l other = true ↔ ∀ k, lookupLbl l k = lookupLbl other k) := by
  refine ⟨labelsEquals_unfold l other, ?_⟩
  rw [labelsEquals_unfold]
  constructor
  · rintro ⟨hlen, hcont⟩ k
    by_cases hk : k ∈ keysOf l
    · obtain ⟨v, hv⟩ := (mem_keysOf l k).mp hk
      rw [mem_lookup_eq l hl k v hv, hcont (k, v) hv]
    · have hsub : ∀ x ∈ keysOf l, x ∈ keysOf other := by
        intro x hx
        obtain ⟨v, hv⟩ := (mem_keysOf l x).mp hx
        exact (mem_keysOf other x).mpr ⟨v, lookup_eq_some_mem other x v (hcont (x, v) hv)⟩
      have hlen' : (keysOf l).length = (keysOf other).length := by
        simp [keysOf, hlen]
      have hfin : (keysOf l).toFinset = (keysOf other).toFinset := by
        apply Finset.eq_of_subset_of_card_le
        · intro x hx
          exact List.mem_toFinset.mpr (hsub x (List.mem_toFinset.mp hx))
        · rw [List.toFinset_card_of_nodup ho, List.toFinset_card_of_nodup hl, hlen']
      have hko : k ∉ keysOf other := by
        intro hk2
        exact hk (List.mem_toFinset.mp (hfin ▸ List.mem_toFinset.mpr hk2))
      rw [(lookup_eq_none_iff l k).mpr hk, (lookup_eq_none_iff other k).mpr hko]
  · intro hall
    have hsub : ∀ x ∈ keysOf l, x ∈ keysOf other := by
      intro x hx
      obtain ⟨v, hv⟩ := (mem_keysOf l x).mp hx
      have h1 : lookupLbl other x = some v := by
        rw [← hall x]; exact mem_lookup_eq l hl x v hv
      exact (mem_keysOf other x).mpr ⟨v, lookup_eq_some_mem other x v h1⟩
    have hsub2 : ∀ x ∈ keysOf other, x ∈ keysOf l := by
      intro x hx
      obtain ⟨v, hv⟩ := (mem_keysOf other x).mp hx
      have h1 : lookupLbl l x = some v := by
        rw [hall x]; exact mem_lookup_eq other ho x v hv
      exact (mem_keysOf l x).mpr ⟨v, lookup_eq_some_mem l x v h1⟩
    constructor
    · have hfin : (keysOf l).toFinset = (keysOf other).toFinset := by
        apply Finset.Subset.antisymm
        · intro x hx; exact List.mem_toFinset.mpr (hsub x (List.mem_toFinset.mp hx))
        · intro x hx; exact List.mem_toFinset.mpr (hsub2 x (List.mem_toFinset.mp hx))
      have hcard := congrArg Finset.card hfin
      rw [List.toFinset_card_of_nodup hl, List.toFinset_card_of_nodup ho] at hcard
      simpa [keysOf] using hcard
    · intro p hp
      rw [← hall p.1]
      exact mem_lookup_eq l hl p.1 p.2 (Prod.mk.eta ▸ hp)

/-- Witness for `labelsEquals_iff` at a concrete singleton pair. -/
theorem labelsEquals_iff_witness :
    Labels.Equals [("a".data, ⟨"a".data, "1".data, LabelSourceK8s⟩)]
      [("a".data, ⟨"a".data, "1".data, LabelSourceK8s⟩)] = true :=
  (labelsEquals_iff [("a".data, ⟨"a".data, "1".data, LabelSourceK8s⟩)]
      [("a".data, ⟨"a".data, "1".data, LabelSourceK8s⟩)]
      (by decide) (by decide)).2.mpr (fun _ => rfl)

/-- Witness for `findReserved_spec` at a set holding one reserved label. -/
theorem findReserved_spec_witness :
    Labels.FindReserved [("host".data, ⟨"host".data, [], LabelSourceReserved⟩)]
        = some [("host".data, ⟨"host".data, [], LabelSourceReserved⟩)]
    ∧ [("host".data, ⟨"host".data, [], LabelSourceReserved⟩)] ≠ ([] : Labels)
    ∧ (("host".data, Label.mk "host".data [] LabelSourceReserved)
          ∈ [("host".data, ⟨"host".data, [], LabelSourceReserved⟩)]
        ↔ (("host".data, Label.mk "host".data [] LabelSourceReserved)
              ∈ [("host".data, ⟨"host".data, [], LabelSourceReserved⟩)]
            ∧ (Label.mk "host".data [] LabelSourceReserved).Source = LabelSourceReserved)) := by
  have h := (findReserved_spec [("host".data, ⟨"host".data, [], LabelSourceReserved⟩)]).2
    [("host".data, ⟨"host".data, [], LabelSourceReserved⟩)] (by decide)
  exact ⟨by decide, h.1, h.2 _⟩

/-! ### First-occurrence search -/

theorem indexByte_append (c : Char) : ∀ (xs ys : Str), c ∉ xs →
    indexByte (xs ++ c :: ys) c = some xs.length := by
  intro xs
  induction xs with
  | nil => intro ys _; simp [indexByte]
  | cons x xs ih =>
      intro ys hc
      have hx : ¬ x = c := fun h => hc (h ▸ List.mem_cons_self x xs)
      have hstep : indexByte ((x :: xs) ++ c :: ys) c
          = if x = c then some 0 else (indexByte (xs ++ c :: ys) c).map (· + 1) := rfl
      rw [hstep, if_neg hx, ih ys (fun h => hc (List.mem_cons_of_mem x h))]
      rfl

theorem indexByte_eq_none_iff : ∀ (s : Str) (c : Char), indexByte s c = none ↔ c ∉ s := by
  intro s c
  induction s with
  | nil => simp [indexByte]
  | cons x rest ih =>
      by_cases hx : x = c
      · subst hx; simp [indexByte]
      · have hcx : ¬ c = x := fun h => hx h.symm
        simp only [indexByte, if_neg hx, Option.map_eq_none', List.mem_cons]
        rw [ih]
        constructor
        · intro h hmem
          rcases hmem with h1 | h1
          · exact hcx h1
          · exact h h1
        · intro h hm
          exact h (Or.inr hm)

theorem indexByte_take_drop (c : Char) : ∀ (s : Str) (i : Nat), indexByte s c = some i →
    s.take i = s.takeWhile (fun x => decide (x ≠ c))
    ∧ s.drop i = s.dropWhile (fun x => decide (x ≠ c)) := by
  intro s
  induction s with
  | nil => intro i h; simp [indexByte] at h
  | cons x rest ih =>
      intro i h
      by_cases hx : x = c
      · subst hx
        simp [indexByte] at h
        rw [← h]
        simp [List.takeWhile, List.dropWhile]
      · simp only [indexByte, if_neg hx] at h
        cases hrest : indexByte rest c with
        | none => rw [hrest] at h; simp at h
        | some j =>
            rw [hrest] at h
            simp only [Option.map_some', Option.some.injEq] at h
            obtain ⟨h1, h2⟩ := ih j hrest
            rw [← h]
            simp [List.takeWhile, List.dropWhile, hx, h1, h2]

theorem indexByte_zero_iff (s : Str) (c : Char) (i : Nat) (h : indexByte s c = some i) :
    i = 0 ↔ s.head? = some c := by
  cases s with
  | nil => simp [indexByte] at h
  | cons x rest =>
      by_cases hx : x = c
      · subst hx
        simp [indexByte] at h
        simp [← h]
      · simp only [indexByte, if_neg hx] at h
        cases hrest : indexByte rest c with
        | none => rw [hrest] at h; simp at h
        | some j =>
            rw [hrest] at h
            simp only [Option.map_some', Option.some.injEq] at h
            constructor
            · intro h0; rw [h0] at h; exact absurd h (by simp)
            · intro hh; exact absurd (List.head?_cons ▸ hh) (by simp [hx])

theorem take_len_append (l1 l2 : Str) : (l1 ++ l2).take l1.length = l1 :=
  List.take_left l1 l2

theorem drop_len_succ_append (l1 : Str) (c : Char) (l2 : Str) :
    (l1 ++ c :: l2).drop (l1.length + 1) = l2 := by
  have h1 : l1 ++ c :: l2 = (l1 ++ [c]) ++ l2 := by simp
  have h2 : (l1 ++ [c]).length = l1.length + 1 := by simp
  rw [h1, ← h2, List.drop_left]

theorem parseLabel_eq_some (str : Str) (delim : Char) (i : Nat)
    (h : indexByte (parseSource str delim).2 '=' = some i) :
    parseLabel str delim =
      if i = 0 ∧ (parseSource str delim).1 = LabelSourceReserved then
        { Key := (parseSource str delim).2.drop (i + 1), Value := [],
          Source := if (parseSource str delim).1 ≠ [] then (parseSource str delim).1
                    else LabelSourceUnspec }
      else
        { Key := (parseSource str delim).2.take i,
          Value := (parseSource str delim).2.drop (i + 1),
          Source := if (parseSource str delim).1 ≠ [] then (parseSource str delim).1
                    else LabelSourceUnspec } := by
  simp only [parseLabel, h]

theorem parseSource_append (src next : Str) (delim : Char)
    (hs : src ≠ []) (hd : '$' ∉ src) (hdelim : delim ∉ src) :
    parseSource (src ++ delim :: next) delim = (src, next) := by
  obtain ⟨a, t, rfl⟩ := List.exists_cons_of_ne_nil hs
  have ha : ¬ a = '$' := fun h => hd (h ▸ List.mem_cons_self a t)
  have hidx : indexByte ((a :: t) ++ delim :: next) delim = some (a :: t).length :=
    indexByte_append delim (a :: t) next hdelim
  rw [List.cons_append] at hidx
  simp only [List.cons_append, parseSource, if_neg ha]
  rw [hidx]
  simp only []
  rw [← List.cons_append]
  rw [take_len_append (a :: t) (delim :: next), drop_len_succ_append (a :: t) delim next]

/-- C5: for non-empty `source` and `key` and fields free of the reserved
characters `:`, `=`, `;`, `$`, parsing the text `source:key=value` (the
kvstore record without its trailing semicolon) recovers exactly the
original triple. -/
theorem parseLabel_roundtrip (source keyStr value : Str)
    (hs : source ≠ []) (hk : keyStr ≠ [])
    (hs1 : ':' ∉ source) (hs2 : '=' ∉ source) (hs3 : ';' ∉ source) (hs4 : '$' ∉ source)
    (hk1 : ':' ∉ keyStr) (hk2 : '=' ∉ keyStr) (hk3 : ';' ∉ keyStr) (hk4 : '$' ∉ keyStr)
    (hv1 : ':' ∉ value) (hv2 : '=' ∉ value) (hv3 : ';' ∉ value) (hv4 : '$' ∉ value) :
    ParseLabel (source ++ ':' :: (keyStr ++ '=' :: value)) = ⟨keyStr, value, source⟩ := by
  have hps := parseSource_append source (keyStr ++ '=' :: value) ':' hs hs4 hs1
  have hidx : indexByte (parseSource (source ++ ':' :: (keyStr ++ '=' :: value)) ':').2 '='
      = some keyStr.length := by
    rw [hps]
    exact indexByte_append '=' keyStr value hk2
  have hi : ¬ (keyStr.length = 0 ∧ source = LabelSourceReserved) := by
    intro hand
    exact hk (List.length_eq_zero.mp hand.1)
  unfold ParseLabel
  rw [parseLabel_eq_some _ ':' keyStr.length hidx, hps]
  simp [hi, hs, hk, take_len_append, drop_len_succ_append]

/-- Witness for `parseLabel_roundtrip` at the triple (k8s, role, backend). -/
theorem parseLabel_roundtrip_witness :
    ParseLabel ("k8s".data ++ ':' :: ("role".data ++ '=' :: "backend".data))
      = ⟨"role".data, "backend".data, "k8s".data⟩ :=
  parseLabel_roundtrip "k8s".data "role".data "backend".data
    (by decide) (by decide) (by decide) (by decide) (by decide) (by decide)
    (by decide) (by decide) (by decide) (by decide) (by decide) (by decide)
    (by decide) (by decide)

/-- C6: when the remainder after source parsing contains a `=`,
`parseLabel` keys on its first occurrence: text before it is the key and
text after it the value — except that a `=` at position 0 of the
remainder with source "reserved" makes the text after it the key and
leaves the value empty. -/
theorem parseLabel_split (str : Str) (delim : Char)
    (hmem : '=' ∈ (parseSource str delim).2) :
    (((parseSource str delim).1 = LabelSourceReserved
        ∧ (parseSource str delim).2.head? = some '=') →
      (parseLabel str delim).Key = (parseSource str delim).2.tail
        ∧ (parseLabel str delim).Value = [])
    ∧ (¬ ((parseSource str delim).1 = LabelSourceReserved
        ∧ (parseSource str delim).2.head? = some '=') →
      (parseLabel str delim).Key
          = (parseSource str delim).2.takeWhile (fun c => decide (c ≠ '='))
        ∧ (parseLabel str delim).Value
          = ((parseSource str delim).2.dropWhile (fun c => decide (c ≠ '='))).tail) := by
  obtain ⟨i, hidx⟩ : ∃ i, indexByte (parseSource str delim).2 '=' = some i := by
    cases h : indexByte (parseSource str delim).2 '=' with
    | none => exact absurd ((indexByte_eq_none_iff _ _).mp h) (by simp [hmem])
    | some j => exact ⟨j, rfl⟩
  have htd := indexByte_take_drop '=' _ i hidx
  have hzero := indexByte_zero_iff _ '=' i hidx
  rw [parseLabel_eq_some str delim i hidx]
  constructor
  · rintro ⟨hres, hhead⟩
    have hi0 : i = 0 := hzero.mpr hhead
    rw [if_pos ⟨hi0, hres⟩]
    exact ⟨by simp [hi0, List.drop_one], rfl⟩
  · intro hneg
    by_cases hcond : i = 0 ∧ (parseSource str delim).1 = LabelSourceReserved
    · exact absurd ⟨hcond.2, hzero.mp hcond.1⟩ hneg
    · rw [if_neg hcond]
      refine ⟨by simp [htd.1], ?_⟩
      show (parseSource str delim).2.drop (i + 1) = _
      rw [← htd.2, List.tail_drop]

/-- Witness for `parseLabel_split` at the reserved shorthand `$=value`. -/
theorem parseLabel_split_witness :
    (parseLabel "$=value".data ':').Key = (parseSource "$=value".data ':').2.tail
    ∧ (parseLabel "$=value".data ':').Value = [] :=
  (parseLabel_split "$=value".data ':' (by decide)).1 (by decide)

end CiliumLabels
